import Mathlib

/-!
Verification of the black-hole renderer (`camera.py`, `main.py`).

The geometry is embedded over the real numbers: numpy 3-vectors become the
structure `Vec3`, Python floats become `ℝ`, Python `None` results become
`Option`, and Python `int()` (truncation toward zero) becomes `pytrunc`.
-/

namespace BlackHole

/-- A 3-component vector (numpy arrays of length 3 in the source). -/
structure Vec3 where
  x : ℝ
  y : ℝ
  z : ℝ

namespace Vec3

/-- `np.dot` for 3-vectors. -/
def dot (a b : Vec3) : ℝ := a.x * b.x + a.y * b.y + a.z * b.z

/-- Componentwise vector addition. -/
def vadd (a b : Vec3) : Vec3 := ⟨a.x + b.x, a.y + b.y, a.z + b.z⟩

/-- Componentwise vector subtraction. -/
def vsub (a b : Vec3) : Vec3 := ⟨a.x - b.x, a.y - b.y, a.z - b.z⟩

/-- Scalar multiplication `t * v`. -/
def smul (t : ℝ) (a : Vec3) : Vec3 := ⟨t * a.x, t * a.y, t * a.z⟩

/-- Division of a vector by a scalar (`v / s` in numpy). -/
noncomputable def vdiv (a : Vec3) (s : ℝ) : Vec3 := ⟨a.x / s, a.y / s, a.z / s⟩

/-- `np.cross` for 3-vectors. -/
def cross (a b : Vec3) : Vec3 :=
  ⟨a.y * b.z - a.z * b.y, a.z * b.x - a.x * b.z, a.x * b.y - a.y * b.x⟩

/-- `np.linalg.norm`: the Euclidean length. -/
noncomputable def norm (a : Vec3) : ℝ := Real.sqrt (dot a a)

end Vec3

/-- Python `int()` applied to a float: truncation toward zero. -/
noncomputable def pytrunc (r : ℝ) : ℤ := if 0 ≤ r then ⌊r⌋ else ⌈r⌉

/-- The events `Camera.handle_event` distinguishes: mouse button down/up with a
button id, mouse motion carrying the relative delta `(dx, dy)`, and anything
else (e.g. `QUIT`), which the camera ignores. -/
inductive Event where
  | mouseButtonDown (button : ℤ)
  | mouseButtonUp (button : ℤ)
  | mouseMotion (dx dy : ℝ)
  | other

/-- The camera state (`camera.py`, class `Camera`).

The `dirty` field is modelled from the spec: `main.py` calls
`camera.consume_dirty()` but `camera.py` as given does not define the flag;
per the spec it is true whenever the orientation changed since last consumed. -/
structure Camera where
  radius : ℝ
  theta : ℝ
  phi : ℝ
  fov : ℝ
  mouse_sensitivity : ℝ
  dragging : Bool
  dirty : Bool

namespace Camera

/-- `Camera.__init__`: radius 50, theta 0, phi 0, fov = radians(60),
sensitivity 0.005, not dragging.  The `dirty` flag (modelled from the spec,
see `Camera`) starts false: no orientation change has happened yet. -/
noncomputable def init : Camera :=
  { radius := 50
    theta := 0
    phi := 0
    fov := 60 * (Real.pi / 180)
    mouse_sensitivity := 0.005
    dragging := false
    dirty := false }

/-- `Camera.handle_event`: button 1 down starts dragging, button 1 up stops it,
and motion while dragging updates `theta`, updates and clamps `phi`.

Setting `dirty := true` on the motion branch is modelled from the spec
(§4.1 `handleDragEvent`): the flag mechanism is absent from `camera.py`
although `main.py` consumes it. -/
noncomputable def handle_event (c : Camera) (e : Event) : Camera :=
  match e with
  | .mouseButtonDown b => if b = 1 then { c with dragging := true } else c
  | .mouseButtonUp b => if b = 1 then { c with dragging := false } else c
  | .mouseMotion dx dy =>
      if c.dragging then
        { c with
          theta := c.theta + dx * c.mouse_sensitivity
          phi := max (-(Real.pi / 2))
            (min (Real.pi / 2) (c.phi - dy * c.mouse_sensitivity))
          dirty := true }
      else c
  | .other => c

/-- Modelled from the spec: `consume_dirty` is called from `main.py` but absent
from `camera.py`. Per the spec §4.1 it returns the current `dirty` value and
clears it to false. -/
def consume_dirty (c : Camera) : Bool × Camera :=
  (c.dirty, { c with dirty := false })

/-- `Camera.position`: spherical-to-Cartesian conversion. -/
noncomputable def position (c : Camera) : Vec3 :=
  ⟨c.radius * Real.cos c.phi * Real.cos c.theta,
   c.radius * Real.sin c.phi,
   c.radius * Real.cos c.phi * Real.sin c.theta⟩

/-- The world up vector `(0, 1, 0)`. -/
def world_up : Vec3 := ⟨0, 1, 0⟩

/-- `Camera.basis_vectors`: returns `(forward, right, up)` looking at the
origin. -/
noncomputable def basis_vectors (c : Camera) : Vec3 × Vec3 × Vec3 :=
  let pos := c.position
  let forward := (Vec3.smul (-1) pos).vdiv pos.norm
  let right0 := Vec3.cross world_up forward
  let right := right0.vdiv right0.norm
  let up := Vec3.cross forward right
  (forward, right, up)

/-- `Camera.project`: world point to pixel coordinates, or `none` when the
camera-space depth is `≤ 0` (behind the camera). -/
noncomputable def project (c : Camera) (point : Vec3) (screen_width screen_height : ℕ) :
    Option (ℤ × ℤ) :=
  let cam_pos := c.position
  let fru := c.basis_vectors
  let rel := point.vsub cam_pos
  let x_cam := rel.dot fru.2.1
  let y_cam := rel.dot fru.2.2
  let z_cam := rel.dot fru.1
  if z_cam ≤ 0 then none
  else
    let scale := 1 / Real.tan (c.fov / 2)
    let x_ndc := x_cam / z_cam * scale
    let y_ndc := y_cam / z_cam * scale
    some (pytrunc ((x_ndc + 1) * 0.5 * screen_width),
          pytrunc ((1 - y_ndc) * 0.5 * screen_height))

/-- Modelled from the spec: `Camera.ray_direction` is called from `main.py`
but absent from `camera.py`.  Per the spec §4.1 it builds a camera-space ray
through the pixel center using the field of view — the exact geometric inverse
of `project` — normalizes it, and returns the world-space direction via the
basis vectors. -/
noncomputable def ray_direction (c : Camera) (px py : ℕ) (w h : ℕ) : Vec3 :=
  let fru := c.basis_vectors
  let ndc_x := 2 * ((px : ℝ) + 0.5) / w - 1
  let ndc_y := 1 - 2 * ((py : ℝ) + 0.5) / h
  let a := ndc_x * Real.tan (c.fov / 2)
  let b := ndc_y * Real.tan (c.fov / 2)
  let d := (Vec3.vadd (Vec3.vadd (Vec3.smul a fru.2.1) (Vec3.smul b fru.2.2)) fru.1)
  d.vdiv d.norm

end Camera

/-! Scene constants and display size (module-level constants of `main.py`). -/

/-- `WIDTH = 200`. -/
def WIDTH : ℕ := 200

/-- `HEIGHT = 150`. -/
def HEIGHT : ℕ := 150

/-- `BH_RADIUS = 1.5`. -/
noncomputable def BH_RADIUS : ℝ := 1.5

/-- `DISK_INNER_RADIUS = 5.0`. -/
noncomputable def DISK_INNER_RADIUS : ℝ := 5.0

/-- `DISK_OUTER_RADIUS = 8.0`. -/
noncomputable def DISK_OUTER_RADIUS : ℝ := 8.0

open Vec3 in
/-- `intersect_sphere`: ray–sphere intersection via the unit-leading-coefficient
quadratic; returns the nearest root above `1e-6`, or `none`. -/
noncomputable def intersect_sphere (ro rd : Vec3) (radius : ℝ) : Option ℝ :=
  let b := 2 * dot ro rd
  let c := dot ro ro - radius * radius
  let disc := b * b - 4 * c
  if disc < 0 then none
  else
    let sqrt_disc := Real.sqrt disc
    let t0 := (-b - sqrt_disc) / 2
    let t1 := (-b + sqrt_disc) / 2
    if t0 > 1e-6 then some t0
    else if t1 > 1e-6 then some t1
    else none

open Vec3 in
/-- `intersect_disk`: ray–annulus intersection in the plane `y = 0`. -/
noncomputable def intersect_disk (ro rd : Vec3) (r_inner r_outer : ℝ) : Option ℝ :=
  if |rd.y| < 1e-6 then none
  else
    let t := -ro.y / rd.y
    if t < 1e-6 then none
    else
      let p := vadd ro (smul t rd)
      let r := Real.sqrt (p.x * p.x + p.z * p.z)
      if r_inner ≤ r ∧ r ≤ r_outer then some t else none

/-- Pixel colors: the three integer channels stored into the `uint8` buffer. -/
abbrev Color := ℤ × ℤ × ℤ

/-- `shade_disk`: radial warm gradient for a disk hit point. -/
noncomputable def shade_disk (point : Vec3) : Color :=
  let r := Real.sqrt (point.x * point.x + point.z * point.z)
  let u := (r - DISK_INNER_RADIUS) / (DISK_OUTER_RADIUS - DISK_INNER_RADIUS)
  let u := min (max u 0) 1
  let brightness := pytrunc (255 * (1 - 0.8 * u))
  (brightness, pytrunc ((brightness : ℝ) * 0.8), pytrunc ((brightness : ℝ) * 0.3))

open Vec3 in
/-- The per-pixel compositing decision shared (textually duplicated) by
`render` and `ProgressiveRender.step`, with the scene constants passed
explicitly: black when the sphere is hit and the disk is missed or farther,
else the shaded disk, else the background. -/
noncomputable def composite_pixel (ro rd : Vec3) (bh_radius r_inner r_outer : ℝ) : Color :=
  let t_bh := intersect_sphere ro rd bh_radius
  let t_disk := intersect_disk ro rd r_inner r_outer
  match t_bh, t_disk with
  | some _, none => (0, 0, 0)
  | some tb, some td =>
      if tb < td then (0, 0, 0) else shade_disk (vadd ro (smul td rd))
  | none, some td => shade_disk (vadd ro (smul td rd))
  | none, none => (25, 25, 45)

open Vec3 in
/-- The body of the double loop of `render` (`main.py` lines 142–164) for one
pixel `(x, y)` of a `w × h` image. -/
noncomputable def renderPixel (cam : Camera) (w h x y : ℕ) : Color :=
  let ro := cam.position
  let rd := cam.ray_direction x y w h
  let t_bh := intersect_sphere ro rd BH_RADIUS
  let t_disk := intersect_disk ro rd DISK_INNER_RADIUS DISK_OUTER_RADIUS
  match t_bh, t_disk with
  | some _, none => (0, 0, 0)
  | some tb, some td =>
      if tb < td then (0, 0, 0) else shade_disk (vadd ro (smul td rd))
  | none, some td => shade_disk (vadd ro (smul td rd))
  | none, none => (25, 25, 45)

open Vec3 in
/-- The body of the double loop of `ProgressiveRender.step` (`main.py` lines
188–210) for one pixel `(x, y)` of a `w × h` image; the source duplicates the
compositing code of `render` verbatim. -/
noncomputable def stepPixel (cam : Camera) (w h x y : ℕ) : Color :=
  let ro := cam.position
  let rd := cam.ray_direction x y w h
  let t_bh := intersect_sphere ro rd BH_RADIUS
  let t_disk := intersect_disk ro rd DISK_INNER_RADIUS DISK_OUTER_RADIUS
  match t_bh, t_disk with
  | some _, none => (0, 0, 0)
  | some tb, some td =>
      if tb < td then (0, 0, 0) else shade_disk (vadd ro (smul td rd))
  | none, some td => shade_disk (vadd ro (smul td rd))
  | none, none => (25, 25, 45)

/-- The whole-frame renderer `render` for a `w × h` image, as the function
sending `(row, column)` to the color the double loop stores at `img[y, x]`. -/
noncomputable def render_image (cam : Camera) (w h : ℕ) : ℕ → ℕ → Color :=
  fun y x => renderPixel cam w h x y

/-- `render(camera)` of `main.py`, which renders at the global size
`WIDTH × HEIGHT`. -/
noncomputable def render (cam : Camera) : ℕ → ℕ → Color :=
  render_image cam WIDTH HEIGHT

/-- The state of class `ProgressiveRender`: the frame buffer (as a function
from `(row, column)` to color), the scan cursor and the active flag. -/
structure ProgressiveRender where
  rw : ℕ
  rh : ℕ
  frame : ℕ → ℕ → Color
  next_row : ℕ
  active : Bool

namespace ProgressiveRender

/-- `ProgressiveRender.__init__(HEIGHT, WIDTH)`: a zeroed frame, cursor 0,
active. -/
def init (height width : ℕ) : ProgressiveRender :=
  { rw := width
    rh := height
    frame := fun _ _ => (0, 0, 0)
    next_row := 0
    active := true }

/-- `ProgressiveRender.start`: reset the cursor and reactivate. -/
def start (p : ProgressiveRender) : ProgressiveRender :=
  { p with next_row := 0, active := true }

/-- `ProgressiveRender.step`: no-op when idle; otherwise fill the rows
`[next_row, min (next_row + rows_per_frame) rh)`, advance the cursor by
`rows_per_frame`, and deactivate once the cursor reaches `rh`. -/
noncomputable def step (p : ProgressiveRender) (cam : Camera) (rows_per_frame : ℕ) :
    ProgressiveRender :=
  if p.active then
    let frame' := fun yy xx =>
      if p.next_row ≤ yy ∧ yy < min (p.next_row + rows_per_frame) p.rh ∧ xx < p.rw
      then stepPixel cam p.rw p.rh xx yy
      else p.frame yy xx
    let nr := p.next_row + rows_per_frame
    { p with frame := frame', next_row := nr, active := decide (nr < p.rh) }
  else p

/-- `n` successive calls of `step` with a fixed camera and row count. -/
noncomputable def stepN (cam : Camera) (rows_per_frame : ℕ) :
    ℕ → ProgressiveRender → ProgressiveRender
  | 0, p => p
  | n + 1, p => (stepN cam rows_per_frame n p).step cam rows_per_frame

end ProgressiveRender

/-- An operation the main loop may perform on the progressive renderer. -/
inductive Op where
  | start
  | step (cam : Camera) (rows_per_frame : ℕ)

/-- Apply a sequence of `start`/`step` operations to a renderer state. -/
noncomputable def applyOps (p : ProgressiveRender) (ops : List Op) : ProgressiveRender :=
  ops.foldl (fun q o => match o with
    | .start => q.start
    | .step cam r => q.step cam r) p

/-- Process a sequence of input events through `Camera.handle_event`
(the event loop of `main.py`). -/
noncomputable def processEvents (c : Camera) (evs : List Event) : Camera :=
  evs.foldl Camera.handle_event c

/-! ### Camera state lemmas -/

/-- `handle_event` never touches `radius`, `fov` or `mouse_sensitivity`. -/
theorem handle_event_radius (c : Camera) (e : Event) :
    (c.handle_event e).radius = c.radius ∧
    (c.handle_event e).fov = c.fov ∧
    (c.handle_event e).mouse_sensitivity = c.mouse_sensitivity := by
  cases e <;> simp only [Camera.handle_event] <;> (try split) <;> simp

/-- `processEvents` never changes `radius`. -/
theorem processEvents_radius (evs : List Event) :
    ∀ c : Camera, (processEvents c evs).radius = c.radius := by
  induction evs with
  | nil => intro c; rfl
  | cons e evs ih =>
      intro c
      have h := (handle_event_radius c e).1
      simpa [processEvents, List.foldl_cons, h] using
        (ih (c.handle_event e)).trans h

/-- C10: `Camera.handle_event` leaves `radius`, `fov` and `mouse_sensitivity`
unchanged for every event (only `theta`, `phi`, `dragging` and the modelled
`dirty` flag are written), so the orbital radius keeps its construction value
50 for the whole run. -/
theorem handle_event_frame_effect :
    (∀ (c : Camera) (e : Event),
      (c.handle_event e).radius = c.radius ∧
      (c.handle_event e).fov = c.fov ∧
      (c.handle_event e).mouse_sensitivity = c.mouse_sensitivity) ∧
    ∀ evs : List Event, (processEvents Camera.init evs).radius = 50 := by
  refine ⟨handle_event_radius, fun evs => ?_⟩
  rw [processEvents_radius evs Camera.init]
  rfl

/-- C2: after a drag-motion event processed while dragging, the first
`consume_dirty` returns `true`, an immediately following second call returns
`false`, and in general `consume_dirty` returns the current `dirty` value and
clears it. -/
theorem consume_dirty_once (c : Camera) (dx dy : ℝ) (h : c.dragging = true) :
    ((c.handle_event (.mouseMotion dx dy)).consume_dirty).1 = true ∧
    ((((c.handle_event (.mouseMotion dx dy)).consume_dirty).2).consume_dirty).1 = false ∧
    ∀ c' : Camera, (c'.consume_dirty).1 = c'.dirty ∧ (c'.consume_dirty).2.dirty = false := by
  refine ⟨?_, ?_, fun c' => ⟨rfl, rfl⟩⟩ <;>
    simp [Camera.handle_event, Camera.consume_dirty, h]

/-- Witness for C2 at a concrete state: press button 1, then move the mouse. -/
theorem consume_dirty_once_witness :
    (Camera.init.handle_event (.mouseButtonDown 1)).dragging = true ∧
    (((Camera.init.handle_event (.mouseButtonDown 1)).handle_event
        (.mouseMotion 3 7)).consume_dirty).1 = true := by
  have hd : (Camera.init.handle_event (.mouseButtonDown 1)).dragging = true := by
    simp [Camera.handle_event, Camera.init]
  exact ⟨hd, (consume_dirty_once (Camera.init.handle_event (.mouseButtonDown 1)) 3 7 hd).1⟩

/-- One event keeps `phi` inside `[-π/2, π/2]` when it started there. -/
theorem handle_event_phi_mem (c : Camera) (e : Event)
    (h1 : -(Real.pi / 2) ≤ c.phi) (h2 : c.phi ≤ Real.pi / 2) :
    -(Real.pi / 2) ≤ (c.handle_event e).phi ∧ (c.handle_event e).phi ≤ Real.pi / 2 := by
  cases e <;> simp only [Camera.handle_event] <;> try exact ⟨h1, h2⟩
  · split <;> exact ⟨h1, h2⟩
  · split <;> exact ⟨h1, h2⟩
  · split
    · refine ⟨le_max_left _ _, max_le (by linarith [Real.pi_pos]) (min_le_left _ _)⟩
    · exact ⟨h1, h2⟩

/-- `processEvents` keeps `phi` inside `[-π/2, π/2]`. -/
theorem processEvents_phi_mem (evs : List Event) :
    ∀ c : Camera, -(Real.pi / 2) ≤ c.phi → c.phi ≤ Real.pi / 2 →
      -(Real.pi / 2) ≤ (processEvents c evs).phi ∧ (processEvents c evs).phi ≤ Real.pi / 2 := by
  induction evs with
  | nil => intro c h1 h2; exact ⟨h1, h2⟩
  | cons e evs ih =>
      intro c h1 h2
      have h := handle_event_phi_mem c e h1 h2
      simpa [processEvents, List.foldl_cons] using ih (c.handle_event e) h.1 h.2

/-- C7: however the camera constructed at startup is driven by drag events —
including motion events with arbitrarily large positive or negative `dy` —
`phi` always stays in `[-π/2, π/2]`. -/
theorem phi_always_clamped (evs : List Event) :
    -(Real.pi / 2) ≤ (processEvents Camera.init evs).phi ∧
    (processEvents Camera.init evs).phi ≤ Real.pi / 2 := by
  have h0 : (Camera.init).phi = 0 := rfl
  refine processEvents_phi_mem evs Camera.init ?_ ?_ <;> rw [h0] <;>
    linarith [Real.pi_pos]

/-! ### Geometry of `position`, `basis_vectors` and `project` -/

/-- The squared length of the camera position is `radius²`. -/
theorem position_dot_self (c : Camera) :
    (c.position).dot c.position = c.radius ^ 2 := by
  have hθ := Real.sin_sq_add_cos_sq c.theta
  have hφ := Real.sin_sq_add_cos_sq c.phi
  simp only [Camera.position, Vec3.dot]
  linear_combination (c.radius ^ 2 * Real.cos c.phi ^ 2) * hθ + c.radius ^ 2 * hφ

/-- The length of the camera position is `radius`. -/
theorem norm_position (c : Camera) (h : 0 ≤ c.radius) :
    (c.position).norm = c.radius := by
  rw [Vec3.norm, position_dot_self, Real.sqrt_sq h]

/-- Closed form of the raw forward vector `-position / ‖position‖`. -/
theorem fwd_raw (c : Camera) (hr : 0 < c.radius) :
    (Vec3.smul (-1) c.position).vdiv ((c.position).norm) =
      ⟨-(Real.cos c.phi * Real.cos c.theta), -Real.sin c.phi,
       -(Real.cos c.phi * Real.sin c.theta)⟩ := by
  rw [norm_position c hr.le]
  have h0 : c.radius ≠ 0 := ne_of_gt hr
  simp only [Camera.position, Vec3.smul, Vec3.vdiv, Vec3.mk.injEq]
  refine ⟨?_, ?_, ?_⟩ <;> field_simp <;> ring

/-- Closed form of the un-normalized right vector `worldUp × forward`. -/
theorem cross_up_fwd (c : Camera) :
    Vec3.cross Camera.world_up
      ⟨-(Real.cos c.phi * Real.cos c.theta), -Real.sin c.phi,
       -(Real.cos c.phi * Real.sin c.theta)⟩ =
      ⟨-(Real.cos c.phi * Real.sin c.theta), 0, Real.cos c.phi * Real.cos c.theta⟩ := by
  simp only [Camera.world_up, Vec3.cross, Vec3.mk.injEq]
  refine ⟨by ring, by ring, by ring⟩

/-- Length of the un-normalized right vector: `cos phi` (when nonnegative). -/
theorem right0_norm (c : Camera) (hc : 0 ≤ Real.cos c.phi) :
    Vec3.norm ⟨-(Real.cos c.phi * Real.sin c.theta), 0,
      Real.cos c.phi * Real.cos c.theta⟩ = Real.cos c.phi := by
  have hθ := Real.sin_sq_add_cos_sq c.theta
  have h : Vec3.dot ⟨-(Real.cos c.phi * Real.sin c.theta), 0,
      Real.cos c.phi * Real.cos c.theta⟩ ⟨-(Real.cos c.phi * Real.sin c.theta), 0,
      Real.cos c.phi * Real.cos c.theta⟩ = Real.cos c.phi ^ 2 := by
    simp only [Vec3.dot]
    linear_combination Real.cos c.phi ^ 2 * hθ
  rw [Vec3.norm, h, Real.sqrt_sq hc]

/-- Closed form of the forward basis vector. -/
theorem forward_eq (c : Camera) (hr : 0 < c.radius) :
    (c.basis_vectors).1 =
      ⟨-(Real.cos c.phi * Real.cos c.theta), -Real.sin c.phi,
       -(Real.cos c.phi * Real.sin c.theta)⟩ := by
  simp only [Camera.basis_vectors]
  exact fwd_raw c hr

/-- Closed form of the right basis vector (for a non-degenerate orientation,
`cos phi > 0`). -/
theorem right_eq (c : Camera) (hr : 0 < c.radius) (hc : 0 < Real.cos c.phi) :
    (c.basis_vectors).2.1 = ⟨-Real.sin c.theta, 0, Real.cos c.theta⟩ := by
  simp only [Camera.basis_vectors]
  rw [fwd_raw c hr, cross_up_fwd c, right0_norm c hc.le]
  have h0 : Real.cos c.phi ≠ 0 := ne_of_gt hc
  simp only [Vec3.vdiv, Vec3.mk.injEq]
  refine ⟨?_, ?_, ?_⟩ <;> (field_simp; try ring)

/-- Closed form of the up basis vector (for a non-degenerate orientation). -/
theorem up_eq (c : Camera) (hr : 0 < c.radius) (hc : 0 < Real.cos c.phi) :
    (c.basis_vectors).2.2 =
      ⟨-(Real.sin c.phi * Real.cos c.theta), Real.cos c.phi,
       -(Real.sin c.phi * Real.sin c.theta)⟩ := by
  have hθ := Real.sin_sq_add_cos_sq c.theta
  have h0 : Real.cos c.phi ≠ 0 := ne_of_gt hc
  simp only [Camera.basis_vectors]
  rw [fwd_raw c hr, cross_up_fwd c, right0_norm c hc.le]
  simp only [Vec3.cross, Vec3.vdiv, Vec3.mk.injEq]
  refine ⟨?_, ?_, ?_⟩
  · field_simp
    try ring
  · field_simp
    linear_combination Real.cos c.phi ^ 2 * hθ
  · field_simp
    try ring

/-- C9: `project` returns the `none` sentinel exactly when the point's
camera-space depth is `≤ 0`; for positive depth it returns the pixel
coordinates obtained by perspective division and the y-flip mapping. -/
theorem project_none_iff_behind (cam : Camera) (p : Vec3) (w h : ℕ) :
    (cam.project p w h = none ↔
      (p.vsub cam.position).dot (cam.basis_vectors).1 ≤ 0) ∧
    (0 < (p.vsub cam.position).dot (cam.basis_vectors).1 →
      cam.project p w h = some
        (pytrunc (((p.vsub cam.position).dot (cam.basis_vectors).2.1 /
            (p.vsub cam.position).dot (cam.basis_vectors).1 *
            (1 / Real.tan (cam.fov / 2)) + 1) * 0.5 * w),
         pytrunc ((1 - (p.vsub cam.position).dot (cam.basis_vectors).2.2 /
            (p.vsub cam.position).dot (cam.basis_vectors).1 *
            (1 / Real.tan (cam.fov / 2))) * 0.5 * h))) := by
  simp only [Camera.project]
  split
  · next hz => exact ⟨by simp [hz], fun hpos => absurd hpos (not_lt.mpr hz)⟩
  · next hz =>
      exact ⟨by simp [hz], fun _ => rfl⟩

/-- Witness for C9: from the default camera, the world origin is in front of
the camera and projects to the screen center `(100, 75)` of the 200 × 150
image. -/
theorem project_none_iff_behind_witness :
    0 < (Vec3.vsub ⟨0, 0, 0⟩ Camera.init.position).dot (Camera.init.basis_vectors).1 ∧
    Camera.init.project ⟨0, 0, 0⟩ 200 150 = some (100, 75) := by
  have hr : (0 : ℝ) < Camera.init.radius := by norm_num [Camera.init]
  have hc : 0 < Real.cos Camera.init.phi := by
    simp [Camera.init, Real.cos_zero]
  have hf := forward_eq Camera.init hr
  have hrt := right_eq Camera.init hr hc
  have hup := up_eq Camera.init hr hc
  have hpos : Camera.init.position = ⟨50, 0, 0⟩ := by
    simp [Camera.position, Camera.init, Real.cos_zero, Real.sin_zero]
  have hz : (Vec3.vsub ⟨0, 0, 0⟩ Camera.init.position).dot (Camera.init.basis_vectors).1
      = 50 := by
    rw [hpos, hf]
    simp [Camera.init, Vec3.vsub, Vec3.dot, Real.cos_zero, Real.sin_zero]
  have hx : (Vec3.vsub ⟨0, 0, 0⟩ Camera.init.position).dot (Camera.init.basis_vectors).2.1
      = 0 := by
    rw [hpos, hrt]
    simp [Camera.init, Vec3.vsub, Vec3.dot, Real.cos_zero, Real.sin_zero]
  have hy : (Vec3.vsub ⟨0, 0, 0⟩ Camera.init.position).dot (Camera.init.basis_vectors).2.2
      = 0 := by
    rw [hpos, hup]
    simp [Camera.init, Vec3.vsub, Vec3.dot, Real.cos_zero, Real.sin_zero]
  have hzpos : 0 < (Vec3.vsub ⟨0, 0, 0⟩ Camera.init.position).dot
      (Camera.init.basis_vectors).1 := by rw [hz]; norm_num
  refine ⟨hzpos, ?_⟩
  rw [(project_none_iff_behind Camera.init ⟨0, 0, 0⟩ 200 150).2 hzpos, hx, hy, hz]
  have h100 : pytrunc ((0 / 50 * (1 / Real.tan (Camera.init.fov / 2)) + 1) * 0.5 * (200 : ℕ))
      = 100 := by
    norm_num [pytrunc]
  have h75 : pytrunc ((1 - 0 / 50 * (1 / Real.tan (Camera.init.fov / 2))) * 0.5 * (150 : ℕ))
      = 75 := by
    norm_num [pytrunc]
  rw [h100, h75]

/-! ### Intersection tests -/

/-- C5: `intersect_sphere` solves the unit-leading-coefficient quadratic with
`b = 2(ro·rd)`, `c = ro·ro - radius²` and discriminant `b² - 4c`: a negative
discriminant gives no hit, otherwise the smaller root `t0` is returned when
`t0 > 1e-6`, else the larger root `t1` when `t1 > 1e-6`, else no hit; and the
two concrete rays behave as stated (hit distance `8.5`, respectively miss). -/
theorem intersect_sphere_spec (ro rd : Vec3) (radius b c disc t0 t1 : ℝ)
    (hb : b = 2 * ro.dot rd) (hc : c = ro.dot ro - radius * radius)
    (hdisc : disc = b * b - 4 * c)
    (ht0 : t0 = (-b - Real.sqrt disc) / 2) (ht1 : t1 = (-b + Real.sqrt disc) / 2) :
    (disc < 0 → intersect_sphere ro rd radius = none) ∧
    (0 ≤ disc → 1e-6 < t0 → intersect_sphere ro rd radius = some t0) ∧
    (0 ≤ disc → t0 ≤ 1e-6 → 1e-6 < t1 → intersect_sphere ro rd radius = some t1) ∧
    (0 ≤ disc → t0 ≤ 1e-6 → t1 ≤ 1e-6 → intersect_sphere ro rd radius = none) ∧
    intersect_sphere ⟨0, 0, 10⟩ ⟨0, 0, -1⟩ 1.5 = some 8.5 ∧
    intersect_sphere ⟨10, 10, 10⟩ ⟨0, 0, -1⟩ 1.5 = none := by
  subst hb hc hdisc ht0 ht1
  refine ⟨?_, ?_, ?_, ?_, ?_, ?_⟩
  · intro h
    simp only [intersect_sphere]
    split_ifs with h1 h2 h3 <;> first | rfl | (exfalso; linarith)
  · intro h h0
    simp only [intersect_sphere]
    split_ifs with h1 h2 h3 <;> first | rfl | (exfalso; linarith)
  · intro h h0 h1
    simp only [intersect_sphere]
    split_ifs with h2 h3 h4 <;> first | rfl | (exfalso; linarith)
  · intro h h0 h1
    simp only [intersect_sphere]
    split_ifs with h2 h3 h4 <;> first | rfl | (exfalso; linarith)
  · have h9 : Real.sqrt 9 = 3 := by
      rw [show (9 : ℝ) = 3 ^ 2 by norm_num, Real.sqrt_sq (by norm_num)]
    simp only [intersect_sphere, Vec3.dot]
    norm_num [h9]
  · simp only [intersect_sphere, Vec3.dot]
    norm_num

/-- Witness for C5: both concrete rays, with every hypothesis of
`intersect_sphere_spec` discharged by `rfl` at the concrete inputs. -/
theorem intersect_sphere_spec_witness :
    intersect_sphere ⟨0, 0, 10⟩ ⟨0, 0, -1⟩ 1.5 = some 8.5 ∧
    intersect_sphere ⟨10, 10, 10⟩ ⟨0, 0, -1⟩ 1.5 = none :=
  ⟨(intersect_sphere_spec ⟨0, 0, 10⟩ ⟨0, 0, -1⟩ 1.5 _ _ _ _ _
      rfl rfl rfl rfl rfl).2.2.2.2.1,
   (intersect_sphere_spec ⟨0, 0, 10⟩ ⟨0, 0, -1⟩ 1.5 _ _ _ _ _
      rfl rfl rfl rfl rfl).2.2.2.2.2⟩

/-- C6 counterexample: the source rejects the plane hit only when `t < 1e-6`
(strictly), so at `t = 1e-6` exactly — ray origin `(2, 1e-6, 0)`, direction
`(0, -1, 0)` — a hit at distance `1e-6 ≤ ε` is reported, where the claim says
a hit with `t ≤ ε` is rejected. -/
theorem intersect_disk_claim_counterexample :
    ((1e-6 : ℝ) ≤ 1e-6) ∧
    intersect_disk ⟨2, 1e-6, 0⟩ ⟨0, -1, 0⟩ 1.5 3 = some 1e-6 := by
  have h4 : Real.sqrt 4 = 2 := by
    rw [show (4 : ℝ) = 2 ^ 2 by norm_num, Real.sqrt_sq (by norm_num)]
  refine ⟨le_refl _, ?_⟩
  simp only [intersect_disk, Vec3.vadd, Vec3.smul]
  norm_num [h4]

/-- C6 (amended): `intersect_disk` returns no hit when `|rd.y| < 1e-6`;
otherwise, with `t = -ro.y / rd.y`, it rejects the hit when `t < 1e-6`
(strictly — `t = 1e-6` exactly is accepted), and otherwise reports a hit at
distance `t` iff the planar hit point's radial distance lies in
`[r_inner, r_outer]`; and the two concrete rays behave as stated. -/
theorem intersect_disk_spec (ro rd : Vec3) (r_inner r_outer t : ℝ)
    (ht : t = -ro.y / rd.y) :
    (|rd.y| < 1e-6 → intersect_disk ro rd r_inner r_outer = none) ∧
    (1e-6 ≤ |rd.y| → t < 1e-6 → intersect_disk ro rd r_inner r_outer = none) ∧
    (1e-6 ≤ |rd.y| → 1e-6 ≤ t →
      (r_inner ≤ Real.sqrt ((ro.x + t * rd.x) * (ro.x + t * rd.x) +
          (ro.z + t * rd.z) * (ro.z + t * rd.z)) ∧
        Real.sqrt ((ro.x + t * rd.x) * (ro.x + t * rd.x) +
          (ro.z + t * rd.z) * (ro.z + t * rd.z)) ≤ r_outer →
        intersect_disk ro rd r_inner r_outer = some t) ∧
      (¬(r_inner ≤ Real.sqrt ((ro.x + t * rd.x) * (ro.x + t * rd.x) +
          (ro.z + t * rd.z) * (ro.z + t * rd.z)) ∧
        Real.sqrt ((ro.x + t * rd.x) * (ro.x + t * rd.x) +
          (ro.z + t * rd.z) * (ro.z + t * rd.z)) ≤ r_outer) →
        intersect_disk ro rd r_inner r_outer = none)) ∧
    intersect_disk ⟨2, 5, 0⟩ ⟨0, -1, 0⟩ 1.5 3 = some 5 ∧
    intersect_disk ⟨0, 5, 0⟩ ⟨0, -1, 0⟩ 1.5 3 = none := by
  subst ht
  refine ⟨?_, ?_, fun h1 h2 => ⟨?_, ?_⟩, ?_, ?_⟩
  · intro h
    simp only [intersect_disk]
    rw [if_pos h]
  · intro h1 h2
    simp only [intersect_disk]
    split_ifs with ha hb <;> first | rfl | (exfalso; linarith)
  · intro hin
    simp only [intersect_disk, Vec3.vadd, Vec3.smul]
    split_ifs with ha hb hcnd <;> first | rfl | (exfalso; exact hcnd hin) | (exfalso; linarith)
  · intro hout
    simp only [intersect_disk, Vec3.vadd, Vec3.smul]
    split_ifs with ha hb hcnd <;> first | rfl | (exfalso; exact hout hcnd) | (exfalso; linarith)
  · have h4 : Real.sqrt 4 = 2 := by
      rw [show (4 : ℝ) = 2 ^ 2 by norm_num, Real.sqrt_sq (by norm_num)]
    simp only [intersect_disk, Vec3.vadd, Vec3.smul]
    norm_num [h4]
  · simp only [intersect_disk, Vec3.vadd, Vec3.smul]
    norm_num

/-- Witness for C6's amended theorem: both concrete rays, with the hypothesis
of `intersect_disk_spec` discharged by `rfl` at the concrete inputs. -/
theorem intersect_disk_spec_witness :
    intersect_disk ⟨2, 5, 0⟩ ⟨0, -1, 0⟩ 1.5 3 = some 5 ∧
    intersect_disk ⟨0, 5, 0⟩ ⟨0, -1, 0⟩ 1.5 3 = none :=
  ⟨(intersect_disk_spec ⟨2, 5, 0⟩ ⟨0, -1, 0⟩ 1.5 3 _ rfl).2.2.2.1,
   (intersect_disk_spec ⟨2, 5, 0⟩ ⟨0, -1, 0⟩ 1.5 3 _ rfl).2.2.2.2⟩

/-! ### The progressive renderer -/

/-- The duplicated per-pixel code of `ProgressiveRender.step` is the per-pixel
code of `render`. -/
theorem stepPixel_eq_renderPixel (cam : Camera) (w h x y : ℕ) :
    stepPixel cam w h x y = renderPixel cam w h x y := rfl

/-- Characterization of the ceiling `⌈H/R⌉ = (H + R - 1) / R`:
`n` is below it exactly when `n` whole strips of `R` rows do not cover `H`. -/
theorem progressive_lt_k (H R : ℕ) (hH : 0 < H) (hR : 0 < R) (n : ℕ) :
    n < (H + R - 1) / R ↔ n * R < H := by
  rw [Nat.lt_iff_add_one_le, Nat.le_div_iff_mul_le hR, add_one_mul]
  generalize n * R = a
  omega

/-- State of the progressive renderer after `m` steps from a fresh start:
the cursor sits at `min m ⌈H/R⌉ · R`, the renderer is active while `m` is
below `⌈H/R⌉`, and exactly the rows below the cursor hold rendered pixels. -/
theorem stepN_invariant (cam : Camera) (H W R : ℕ) (hH : 0 < H) (hR : 0 < R) (m : ℕ) :
    (ProgressiveRender.stepN cam R m ((ProgressiveRender.init H W).start)).rw = W ∧
    (ProgressiveRender.stepN cam R m ((ProgressiveRender.init H W).start)).rh = H ∧
    (ProgressiveRender.stepN cam R m ((ProgressiveRender.init H W).start)).next_row
      = min m ((H + R - 1) / R) * R ∧
    (ProgressiveRender.stepN cam R m ((ProgressiveRender.init H W).start)).active
      = decide (m < (H + R - 1) / R) ∧
    ∀ y x, (ProgressiveRender.stepN cam R m ((ProgressiveRender.init H W).start)).frame y x
      = if y < min (min m ((H + R - 1) / R) * R) H ∧ x < W
        then stepPixel cam W H x y else (0, 0, 0) := by
  induction m with
  | zero =>
      have h0k : 0 < (H + R - 1) / R := by
        rw [progressive_lt_k H R hH hR 0]
        simpa using hH
      refine ⟨rfl, rfl,
        by simp [ProgressiveRender.stepN, ProgressiveRender.start], ?_, ?_⟩
      · simp [ProgressiveRender.stepN, ProgressiveRender.start, ProgressiveRender.init, h0k]
      · intro y x
        simp [ProgressiveRender.stepN, ProgressiveRender.start, ProgressiveRender.init]
  | succ m ih =>
      obtain ⟨hrw, hrh, hnr, hact, hfr⟩ := ih
      by_cases hm : m < (H + R - 1) / R
      · have hmk : min m ((H + R - 1) / R) = m := min_eq_left hm.le
        have hmk1 : min (m + 1) ((H + R - 1) / R) = m + 1 :=
          min_eq_left (Nat.succ_le_of_lt hm)
        have hlt : m * R < H := (progressive_lt_k H R hH hR m).mp hm
        have hact' : (ProgressiveRender.stepN cam R m
            ((ProgressiveRender.init H W).start)).active = true := by
          rw [hact]; simpa using hm
        rw [hmk] at hnr hfr
        refine ⟨?_, ?_, ?_, ?_, ?_⟩ <;>
          simp only [ProgressiveRender.stepN, ProgressiveRender.step, hact', if_true]
        · exact hrw
        · exact hrh
        · rw [hnr, hmk1, add_one_mul]
        · rw [hnr, hrh, decide_eq_decide, progressive_lt_k H R hH hR (m + 1),
            add_one_mul]
        · intro y x
          rw [hmk1, hrw, hrh, hnr, hfr y x, add_one_mul]
          generalize m * R = a
          split_ifs <;> first | rfl | omega
      · have hact' : (ProgressiveRender.stepN cam R m
            ((ProgressiveRender.init H W).start)).active = false := by
          rw [hact]; simpa using hm
        have hstep : ProgressiveRender.stepN cam R (m + 1)
            ((ProgressiveRender.init H W).start)
            = ProgressiveRender.stepN cam R m ((ProgressiveRender.init H W).start) := by
          simp only [ProgressiveRender.stepN]
          simp [ProgressiveRender.step, hact']
        rw [hstep]
        have h1 : min (m + 1) ((H + R - 1) / R) = min m ((H + R - 1) / R) := by omega
        have h2 : decide (m + 1 < (H + R - 1) / R) = decide (m < (H + R - 1) / R) := by
          rw [decide_eq_decide]
          omega
        rw [h1, h2]
        exact ⟨hrw, hrh, hnr, hact, hfr⟩

/-- C1: for a fresh `H × W` progressive renderer and a fixed camera, stepping
with `R` rows per call leaves the renderer active for the first
`⌈H/R⌉ - 1` calls and Idle (`active = false`) after exactly
`⌈H/R⌉ = (H + R - 1) / R` calls, and the finished buffer is pixel-identical
to the single-shot whole-frame render at the same camera state. -/
theorem progressive_completion (cam : Camera) (H W R : ℕ) (hH : 0 < H) (hR : 0 < R) :
    (ProgressiveRender.stepN cam R ((H + R - 1) / R)
      ((ProgressiveRender.init H W).start)).active = false ∧
    (∀ m, m < (H + R - 1) / R →
      (ProgressiveRender.stepN cam R m
        ((ProgressiveRender.init H W).start)).active = true) ∧
    ∀ y, y < H → ∀ x, x < W →
      (ProgressiveRender.stepN cam R ((H + R - 1) / R)
        ((ProgressiveRender.init H W).start)).frame y x = render_image cam W H y x := by
  obtain ⟨hrw, hrh, hnr, hact, hfr⟩ :=
    stepN_invariant cam H W R hH hR ((H + R - 1) / R)
  refine ⟨?_, ?_, ?_⟩
  · rw [hact]
    simp
  · intro m hm
    obtain ⟨_, _, _, hact', _⟩ := stepN_invariant cam H W R hH hR m
    rw [hact']
    simpa using hm
  · intro y hy x hx
    have hk : H ≤ ((H + R - 1) / R) * R := by
      by_contra hcon
      push_neg at hcon
      exact absurd ((progressive_lt_k H R hH hR _).mpr hcon) (lt_irrefl _)
    have hfr' := hfr y x
    rw [min_self, min_eq_right hk] at hfr'
    rw [hfr', if_pos ⟨hy, hx⟩]
    rfl

/-- Witness for C1 at the source's sizes: height 150, 20 rows per call,
idle after `(150 + 20 - 1) / 20 = 8` calls. -/
theorem progressive_completion_witness :
    0 < 150 ∧ 0 < 20 ∧
    (ProgressiveRender.stepN Camera.init 20 ((150 + 20 - 1) / 20)
      ((ProgressiveRender.init 150 200).start)).active = false :=
  ⟨by norm_num, by norm_num,
   (progressive_completion Camera.init 150 200 20 (by norm_num) (by norm_num)).1⟩

/-- C8 counterexample: with the source's sizes (height 150, width 200, 20 rows
per call, as in the main loop) the deactivating 8th `step` pushes the cursor to
`next_row = 160 > 150 = height`, so `next_row ≤ height` does not hold for every
sequence of `start`/`step` calls. -/
theorem nextRow_bound_counterexample :
    (ProgressiveRender.stepN Camera.init 20 8
      ((ProgressiveRender.init 150 200).start)).rh = 150 ∧
    (ProgressiveRender.stepN Camera.init 20 8
      ((ProgressiveRender.init 150 200).start)).next_row = 160 ∧
    ¬((ProgressiveRender.stepN Camera.init 20 8
      ((ProgressiveRender.init 150 200).start)).next_row ≤
      (ProgressiveRender.stepN Camera.init 20 8
        ((ProgressiveRender.init 150 200).start)).rh) := by
  obtain ⟨hrw, hrh, hnr, hact, hfr⟩ :=
    stepN_invariant Camera.init 150 200 20 (by norm_num) (by norm_num) 8
  norm_num at hnr
  refine ⟨hrh, hnr, ?_⟩
  rw [hnr, hrh]
  norm_num

/-- Every `start`/`step` sequence preserves `rh` and the bound
`active → next_row ≤ rh`. -/
theorem applyOps_cursor_inv (ops : List Op) :
    ∀ p : ProgressiveRender, (p.active = true → p.next_row ≤ p.rh) →
      (applyOps p ops).rh = p.rh ∧
      ((applyOps p ops).active = true → (applyOps p ops).next_row ≤ (applyOps p ops).rh) := by
  induction ops with
  | nil => intro p hp; exact ⟨rfl, hp⟩
  | cons o ops ih =>
      intro p hp
      cases o with
      | start =>
          have h := ih p.start (by intro _; exact Nat.zero_le _)
          exact ⟨h.1, h.2⟩
      | step cam r =>
          have hinv : (p.step cam r).active = true → (p.step cam r).next_row ≤ (p.step cam r).rh := by
            simp only [ProgressiveRender.step]
            split
            · intro h
              simp only [decide_eq_true_eq] at h
              exact h.le
            · exact hp
          have hrh : (p.step cam r).rh = p.rh := by
            simp only [ProgressiveRender.step]
            split <;> rfl
          have h := ih (p.step cam r) hinv
          exact ⟨h.1.trans hrh, h.2⟩

/-- C8 (amended): under every sequence of `start` and `step` calls from
construction, the height field stays `H`, the scan cursor satisfies
`0 ≤ next_row` unconditionally, and `next_row ≤ height` whenever the renderer
is still active; only after the deactivating final `step` of a scan may the
cursor overshoot `height` (by less than that call's row count, as in the
concrete counterexample). -/
theorem nextRow_bound_amended (H W : ℕ) (ops : List Op) :
    (applyOps (ProgressiveRender.init H W) ops).rh = H ∧
    0 ≤ (applyOps (ProgressiveRender.init H W) ops).next_row ∧
    ((applyOps (ProgressiveRender.init H W) ops).active = true →
      (applyOps (ProgressiveRender.init H W) ops).next_row ≤ H) := by
  have h := applyOps_cursor_inv ops (ProgressiveRender.init H W)
    (by intro _; exact Nat.zero_le _)
  have hrh : (applyOps (ProgressiveRender.init H W) ops).rh = H := h.1
  exact ⟨hrh, Nat.zero_le _, fun ha => le_of_le_of_eq (h.2 ha) hrh⟩

/-- Witness for C8's amended theorem: after one 20-row step on the 150 × 200
renderer the cursor is 20, the renderer is active, and the bound holds. -/
theorem nextRow_bound_amended_witness :
    (applyOps (ProgressiveRender.init 150 200) [Op.step Camera.init 20]).active = true ∧
    (applyOps (ProgressiveRender.init 150 200) [Op.step Camera.init 20]).next_row ≤ 150 := by
  have hact : (applyOps (ProgressiveRender.init 150 200) [Op.step Camera.init 20]).active
      = true := by
    simp [applyOps, ProgressiveRender.step, ProgressiveRender.init]
  exact ⟨hact, (nextRow_bound_amended 150 200 [Op.step Camera.init 20]).2.2 hact⟩

/-- The first color channel produced by `shade_disk` is at least 51 (the
brightness is `255·(1 - 0.8·u)` with `u` clipped to `[0, 1]`), so a shaded
disk pixel is never pure black. -/
theorem shade_disk_fst (p : Vec3) : 51 ≤ (shade_disk p).1 := by
  simp only [shade_disk]
  set u := (Real.sqrt (p.x * p.x + p.z * p.z) - DISK_INNER_RADIUS) /
    (DISK_OUTER_RADIUS - DISK_INNER_RADIUS) with hu
  have h1 : min (max u 0) 1 ≤ 1 := min_le_right _ _
  have h0 : 0 ≤ min (max u 0) 1 := le_min (le_max_right _ _) zero_le_one
  have hval : (51 : ℝ) ≤ 255 * (1 - 0.8 * min (max u 0) 1) := by nlinarith
  rw [pytrunc, if_pos (by linarith)]
  exact Int.le_floor.mpr (by push_cast; linarith)

/-- C4: the per-pixel compositing decision is identical in the single-shot and
progressive renderers and, with the scene constants passed explicitly, paints
black exactly when the sphere is hit and the disk is missed or strictly
farther; when the two hit distances are equal the pixel is shaded as disk. -/
theorem compositing_rule :
    (∀ (cam : Camera) (w h x y : ℕ),
      stepPixel cam w h x y = renderPixel cam w h x y ∧
      renderPixel cam w h x y =
        composite_pixel cam.position (cam.ray_direction x y w h)
          BH_RADIUS DISK_INNER_RADIUS DISK_OUTER_RADIUS) ∧
    ∀ (ro rd : Vec3) (rs ri rout : ℝ),
      (composite_pixel ro rd rs ri rout = (0, 0, 0) ↔
        (∃ tb, intersect_sphere ro rd rs = some tb ∧
          (intersect_disk ro rd ri rout = none ∨
            ∃ td, intersect_disk ro rd ri rout = some td ∧ tb < td))) ∧
      ∀ t, intersect_sphere ro rd rs = some t →
        intersect_disk ro rd ri rout = some t →
        composite_pixel ro rd rs ri rout = shade_disk (Vec3.vadd ro (Vec3.smul t rd)) := by
  refine ⟨fun cam w h x y => ⟨rfl, rfl⟩, ?_⟩
  intro ro rd rs ri rout
  constructor
  · cases hs : intersect_sphere ro rd rs with
    | none =>
        cases hd : intersect_disk ro rd ri rout with
        | none => simp [composite_pixel, hs, hd]
        | some td =>
            simp only [composite_pixel, hs, hd]
            constructor
            · intro hsh
              exfalso
              have h51 := shade_disk_fst (Vec3.vadd ro (Vec3.smul td rd))
              rw [hsh] at h51
              norm_num at h51
            · rintro ⟨tb, htb, _⟩
              exact absurd htb (by simp)
    | some tb =>
        cases hd : intersect_disk ro rd ri rout with
        | none =>
            simp only [composite_pixel, hs, hd]
            constructor
            · intro _
              exact ⟨tb, rfl, Or.inl trivial⟩
            · intro _
              trivial
        | some td =>
            simp only [composite_pixel, hs, hd]
            split
            · next hlt =>
                constructor
                · intro _
                  exact ⟨tb, rfl, Or.inr ⟨td, rfl, hlt⟩⟩
                · intro _
                  rfl
            · next hlt =>
                constructor
                · intro hsh
                  exfalso
                  have h51 := shade_disk_fst (Vec3.vadd ro (Vec3.smul td rd))
                  rw [hsh] at h51
                  norm_num at h51
                · rintro ⟨tb', htb', hor⟩
                  exfalso
                  have htb : tb' = tb := by
                    injection htb' with h
                    exact h.symm
                  rcases hor with hnone | ⟨td', htd', hlt'⟩
                  · exact Option.some_ne_none td hnone
                  · have : td' = td := by
                      injection htd' with h
                      exact h.symm
                    subst htb this
                    exact hlt hlt'
  · intro t hs2 hd2
    simp only [composite_pixel, hs2, hd2]
    rw [if_neg (lt_irrefl t)]

/-- Witness for C4: the ray from `(5, 5, 0)` straight down hits a radius-5
sphere and the `[5, 8]` annulus at exactly the same distance 5, and the pixel
is shaded as disk, not painted black. -/
theorem compositing_rule_witness :
    intersect_sphere ⟨5, 5, 0⟩ ⟨0, -1, 0⟩ 5 = some 5 ∧
    intersect_disk ⟨5, 5, 0⟩ ⟨0, -1, 0⟩ 5 8 = some 5 ∧
    composite_pixel ⟨5, 5, 0⟩ ⟨0, -1, 0⟩ 5 5 8 =
      shade_disk (Vec3.vadd ⟨5, 5, 0⟩ (Vec3.smul 5 ⟨0, -1, 0⟩)) := by
  have h25 : Real.sqrt 25 = 5 := by
    rw [show (25 : ℝ) = 5 ^ 2 by norm_num, Real.sqrt_sq (by norm_num)]
  have hs : intersect_sphere ⟨5, 5, 0⟩ ⟨0, -1, 0⟩ 5 = some 5 := by
    simp only [intersect_sphere, Vec3.dot]
    norm_num [Real.sqrt_zero]
  have hd : intersect_disk ⟨5, 5, 0⟩ ⟨0, -1, 0⟩ 5 8 = some 5 := by
    simp only [intersect_disk, Vec3.vadd, Vec3.smul]
    norm_num [h25]
  exact ⟨hs, hd, (compositing_rule.2 ⟨5, 5, 0⟩ ⟨0, -1, 0⟩ 5 5 8).2 5 hs hd⟩

/-! ### Projection / ray-direction round trip -/

/-- Adding a vector and subtracting the base point gives the vector back. -/
theorem vadd_vsub_self (p v : Vec3) : (Vec3.vadd p v).vsub p = v := by
  cases v
  simp only [Vec3.vadd, Vec3.vsub, Vec3.mk.injEq]
  refine ⟨by ring, by ring, by ring⟩

/-- Scaling back a vector divided by a nonzero scalar gives the vector back. -/
theorem smul_vdiv_cancel (s : ℝ) (v : Vec3) (hs : s ≠ 0) :
    Vec3.smul s (v.vdiv s) = v := by
  cases v
  simp only [Vec3.smul, Vec3.vdiv, Vec3.mk.injEq]
  refine ⟨?_, ?_, ?_⟩ <;> field_simp

/-- Python truncation of `n + 0.5` for a natural `n` is `n`. -/
theorem pytrunc_nat_add_half (n : ℕ) : pytrunc ((n : ℝ) + 0.5) = n := by
  rw [pytrunc, if_pos (by positivity)]
  rw [Int.floor_eq_iff]
  constructor
  · push_cast
    linarith
  · push_cast
    linarith

/-- C3 (amended): for every pixel of the image and every non-degenerate camera
orientation (`cos phi > 0`, i.e. the camera not on the world-up axis, with a
positive orbit radius and `tan (fov/2) > 0` as at construction), there is a
positive `t` — the length of the un-normalized pixel ray — such that
projecting `position + t · rayDirection(px, py, w, h)` returns exactly the
pixel `(px, py)`, hence within ±1 pixel. -/
theorem ray_project_roundtrip (cam : Camera) (px py w h : ℕ)
    (hw : 0 < w) (hh : 0 < h) (hpx : px < w) (hpy : py < h)
    (hr : 0 < cam.radius) (hc : 0 < Real.cos cam.phi)
    (htan : 0 < Real.tan (cam.fov / 2)) :
    ∃ t : ℝ, 0 < t ∧ ∃ q : ℤ × ℤ,
      cam.project (Vec3.vadd cam.position
        (Vec3.smul t (cam.ray_direction px py w h))) w h = some q ∧
      |q.1 - (px : ℤ)| ≤ 1 ∧ |q.2 - (py : ℤ)| ≤ 1 := by
  have hθ := Real.sin_sq_add_cos_sq cam.theta
  have hφ := Real.sin_sq_add_cos_sq cam.phi
  have hf := forward_eq cam hr
  have hrt := right_eq cam hr hc
  have hup := up_eq cam hr hc
  set F : Vec3 := ⟨-(Real.cos cam.phi * Real.cos cam.theta), -Real.sin cam.phi,
    -(Real.cos cam.phi * Real.sin cam.theta)⟩ with hF
  set Rv : Vec3 := ⟨-Real.sin cam.theta, 0, Real.cos cam.theta⟩ with hRv
  set U : Vec3 := ⟨-(Real.sin cam.phi * Real.cos cam.theta), Real.cos cam.phi,
    -(Real.sin cam.phi * Real.sin cam.theta)⟩ with hU
  set a : ℝ := (2 * ((px : ℝ) + 0.5) / (w : ℝ) - 1) * Real.tan (cam.fov / 2) with ha
  set b : ℝ := (1 - 2 * ((py : ℝ) + 0.5) / (h : ℝ)) * Real.tan (cam.fov / 2) with hb
  set d : Vec3 := Vec3.vadd (Vec3.vadd (Vec3.smul a Rv) (Vec3.smul b U)) F with hd
  have hdd : d.dot d = a ^ 2 + b ^ 2 + 1 := by
    simp only [hd, hF, hRv, hU, Vec3.dot, Vec3.vadd, Vec3.smul]
    linear_combination (a ^ 2 + b ^ 2 * Real.sin cam.phi ^ 2 + Real.cos cam.phi ^ 2 +
      2 * b * Real.sin cam.phi * Real.cos cam.phi) * hθ + (b ^ 2 + 1) * hφ
  have hdd1 : (0 : ℝ) < a ^ 2 + b ^ 2 + 1 := by positivity
  have hnorm : d.norm = Real.sqrt (a ^ 2 + b ^ 2 + 1) := by rw [Vec3.norm, hdd]
  have hnpos : 0 < d.norm := by
    rw [hnorm]
    exact Real.sqrt_pos.mpr hdd1
  have hdr : d.dot Rv = a := by
    simp only [hd, hF, hRv, hU, Vec3.dot, Vec3.vadd, Vec3.smul]
    linear_combination a * hθ
  have hdu : d.dot U = b := by
    simp only [hd, hF, hRv, hU, Vec3.dot, Vec3.vadd, Vec3.smul]
    linear_combination (b * Real.sin cam.phi ^ 2 +
      Real.sin cam.phi * Real.cos cam.phi) * hθ + b * hφ
  have hdf : d.dot F = 1 := by
    simp only [hd, hF, hRv, hU, Vec3.dot, Vec3.vadd, Vec3.smul]
    linear_combination (b * Real.sin cam.phi * Real.cos cam.phi +
      Real.cos cam.phi ^ 2) * hθ + hφ
  have hray : cam.ray_direction px py w h = d.vdiv d.norm := by
    simp only [Camera.ray_direction, hf, hrt, hup]
  have hpoint : Vec3.vadd cam.position (Vec3.smul d.norm (cam.ray_direction px py w h))
      = Vec3.vadd cam.position d := by
    rw [hray, smul_vdiv_cancel d.norm d (ne_of_gt hnpos)]
  refine ⟨d.norm, hnpos, ((px : ℤ), (py : ℤ)), ?_, by simp, by simp⟩
  rw [hpoint]
  simp only [Camera.project]
  rw [vadd_vsub_self, hf, hrt, hup, hdr, hdu, hdf]
  rw [if_neg (by norm_num)]
  have htan0 : Real.tan (cam.fov / 2) ≠ 0 := ne_of_gt htan
  have hwne : (w : ℝ) ≠ 0 := ne_of_gt (by exact_mod_cast hw)
  have hhne : (h : ℝ) ≠ 0 := ne_of_gt (by exact_mod_cast hh)
  have hex : (a / 1 * (1 / Real.tan (cam.fov / 2)) + 1) * 0.5 * (w : ℝ)
      = (px : ℝ) + 0.5 := by
    rw [ha]
    field_simp
    ring
  have hey : (1 - b / 1 * (1 / Real.tan (cam.fov / 2))) * 0.5 * (h : ℝ)
      = (py : ℝ) + 0.5 := by
    rw [hb]
    field_simp
    ring
  rw [hex, hey, pytrunc_nat_add_half px, pytrunc_nat_add_half py]

/-- Witness for C3's amended theorem at the default camera (radius 50,
fov 60°, orientation `theta = phi = 0`) and pixel `(10, 10)` of the 200 × 150
image. -/
theorem ray_project_roundtrip_witness :
    0 < Camera.init.radius ∧ 0 < Real.cos Camera.init.phi ∧
    0 < Real.tan (Camera.init.fov / 2) ∧
    ∃ t : ℝ, 0 < t ∧ ∃ q : ℤ × ℤ,
      Camera.init.project (Vec3.vadd Camera.init.position
        (Vec3.smul t (Camera.init.ray_direction 10 10 200 150))) 200 150 = some q ∧
      |q.1 - (10 : ℤ)| ≤ 1 ∧ |q.2 - (10 : ℤ)| ≤ 1 := by
  have hr : (0 : ℝ) < Camera.init.radius := by norm_num [Camera.init]
  have hc : 0 < Real.cos Camera.init.phi := by simp [Camera.init]
  have hfov : Camera.init.fov / 2 = Real.pi / 6 := by
    simp only [Camera.init]
    ring
  have htan : 0 < Real.tan (Camera.init.fov / 2) := by
    rw [hfov]
    refine Real.tan_pos_of_pos_of_lt_pi_div_two ?_ ?_
    · positivity
    · linarith [Real.pi_pos]
  exact ⟨hr, hc, htan,
    ray_project_roundtrip Camera.init 10 10 200 150 (by norm_num) (by norm_num)
      (by norm_num) (by norm_num) hr hc htan⟩

/-- C3 counterexample: at the degenerate orientation `phi = π/2` (reachable —
a drag with large negative `dy` clamps `phi` to exactly `π/2`), the basis
normalization divides by zero, the right and up vectors collapse to zero, and
every ray through any pixel projects back to the screen center `(100, 75)`;
for pixel `(10, 10)`, strictly inside the 200 × 150 image, no positive `t`
lands within ±1 pixel, refuting the claim for arbitrary orientations.
(The Python code divides `0/0` here, producing NaN and then a crash in
`int(...)`; the embedding's total division-by-zero semantics likewise yields
no round trip.) -/
theorem ray_project_roundtrip_counterexample :
    ¬ ∃ t : ℝ, 0 < t ∧ ∃ q : ℤ × ℤ,
      ({ Camera.init with phi := Real.pi / 2 } : Camera).project
        (Vec3.vadd ({ Camera.init with phi := Real.pi / 2 } : Camera).position
          (Vec3.smul t (({ Camera.init with phi := Real.pi / 2 } : Camera).ray_direction
            10 10 200 150))) 200 150 = some q ∧
      |q.1 - (10 : ℤ)| ≤ 1 ∧ |q.2 - (10 : ℤ)| ≤ 1 := by
  set cam : Camera := { Camera.init with phi := Real.pi / 2 } with hcam
  have hpos : cam.position = ⟨0, 50, 0⟩ := by
    simp [hcam, Camera.position, Camera.init, Real.cos_pi_div_two, Real.sin_pi_div_two]
  have hposnorm : (cam.position).norm = 50 := by
    rw [hpos, Vec3.norm]
    simp only [Vec3.dot]
    rw [show (0 * 0 + 50 * 50 + 0 * 0 : ℝ) = 50 ^ 2 by norm_num,
      Real.sqrt_sq (by norm_num)]
  have hfwd : (Vec3.smul (-1) cam.position).vdiv ((cam.position).norm)
      = ⟨0, -1, 0⟩ := by
    rw [hposnorm, hpos]
    simp only [Vec3.smul, Vec3.vdiv, Vec3.mk.injEq]
    norm_num
  have hcross : Vec3.cross Camera.world_up ⟨0, -1, 0⟩ = ⟨0, 0, 0⟩ := by
    simp only [Camera.world_up, Vec3.cross, Vec3.mk.injEq]
    norm_num
  have hzero_norm : Vec3.norm ⟨0, 0, 0⟩ = 0 := by
    rw [Vec3.norm]
    simp only [Vec3.dot]
    rw [show (0 * 0 + 0 * 0 + 0 * 0 : ℝ) = 0 by norm_num, Real.sqrt_zero]
  have hbasis : cam.basis_vectors = (⟨0, -1, 0⟩, ⟨0, 0, 0⟩, ⟨0, 0, 0⟩) := by
    simp only [Camera.basis_vectors, hfwd, hcross, hzero_norm]
    have hdz : (⟨0, 0, 0⟩ : Vec3).vdiv 0 = ⟨0, 0, 0⟩ := by
      simp [Vec3.vdiv]
    rw [hdz]
    have hc2 : Vec3.cross ⟨0, -1, 0⟩ ⟨0, 0, 0⟩ = ⟨0, 0, 0⟩ := by
      simp only [Vec3.cross, Vec3.mk.injEq]
      norm_num
    rw [hc2]
  have hray : cam.ray_direction 10 10 200 150 = ⟨0, -1, 0⟩ := by
    simp only [Camera.ray_direction, hbasis]
    simp only [Vec3.smul, Vec3.vadd, mul_zero, add_zero, zero_add]
    have h1 : Vec3.norm ⟨(0 : ℝ), -1, 0⟩ = 1 := by
      rw [Vec3.norm]
      simp only [Vec3.dot]
      norm_num
    rw [h1]
    simp [Vec3.vdiv, Vec3.mk.injEq]
  rintro ⟨t, ht, q, hproj, hq1, hq2⟩
  have hpoint : Vec3.vadd cam.position (Vec3.smul t (cam.ray_direction 10 10 200 150))
      = ⟨0, 50 - t, 0⟩ := by
    rw [hray, hpos]
    simp only [Vec3.smul, Vec3.vadd, Vec3.mk.injEq]
    refine ⟨by ring, by ring, by ring⟩
  rw [hpoint] at hproj
  have hrel : (Vec3.vsub ⟨0, 50 - t, 0⟩ cam.position) = ⟨0, -t, 0⟩ := by
    rw [hpos]
    simp only [Vec3.vsub, Vec3.mk.injEq]
    norm_num
  simp only [Camera.project, hbasis, hrel] at hproj
  have hzc : Vec3.dot ⟨0, -t, 0⟩ ⟨0, -1, 0⟩ = t := by
    simp only [Vec3.dot]
    ring
  have hxc : Vec3.dot ⟨0, -t, 0⟩ (⟨0, 0, 0⟩ : Vec3) = 0 := by
    simp only [Vec3.dot]
    ring
  rw [hzc, hxc, if_neg (not_le.mpr ht)] at hproj
  have h100 : pytrunc ((0 / t * (1 / Real.tan (cam.fov / 2)) + 1) * 0.5 * ((200 : ℕ) : ℝ))
      = 100 := by
    norm_num [pytrunc]
  have h75 : pytrunc ((1 - 0 / t * (1 / Real.tan (cam.fov / 2))) * 0.5 * ((150 : ℕ) : ℝ))
      = 75 := by
    norm_num [pytrunc]
  rw [h100, h75] at hproj
  have hq : q = ((100 : ℤ), (75 : ℤ)) := by
    injection hproj with hq
    exact hq.symm
  rw [hq] at hq1
  norm_num at hq1

end BlackHole
